import Mathlib

/-!
Verification of the matching/scoring engine and boundary deduplicator of the
extraction benchmark (`tests/extraction-benchmark/evaluation/scorer.py` and
`tests/extraction-benchmark/core/deduplicator.py`).

The Python field records are dicts; here a record is modelled by the
`Field` structure whose components are the keys the engine reads
(`label`, `fieldType`, `type`, `coordinates`, `box`, `tableConfig`,
`dateSegments`, `segments`, `_quadrant`).  `Option` encodes key absence,
so `dict.get(k, d)` becomes `Option.getD`.  A coordinate dict is a
`CoordDict` of four optional rationals; Python truthiness of such a dict
(`not coords`) is `CoordDict.isEmptyD`.  Numbers are `ℚ` (the Python code
does exact-looking arithmetic on percentages; `ℚ` keeps division total and
exact).  `str.lower()` and `str.strip()` are modelled character-wise by
`pyLower` and `pyStrip`.
-/

namespace EB

/-- A coordinate dict restricted to the four keys the engine reads.
`none` means the key is absent. -/
structure CoordDict where
  left : Option ℚ
  top : Option ℚ
  width : Option ℚ
  height : Option ℚ
deriving DecidableEq

/-- Python truthiness test `not coords` for a coordinate dict: true when no
key is present. -/
def CoordDict.isEmptyD (c : CoordDict) : Bool :=
  c.left.isNone && c.top.isNone && c.width.isNone && c.height.isNone

/-- The empty dict `{}`. -/
def emptyD : CoordDict := ⟨none, none, none, none⟩

/-- The `tableConfig` value: the engine only reads its `coordinates` key. -/
structure TableConfig where
  coordinates : Option CoordDict
deriving DecidableEq

/-- One field record, restricted to the keys the scoring and deduplication
code reads.  `type` models the `"type"` key used as fallback for
`"fieldType"`; `quadrant` models the `"_quadrant"` region tag (the only
underscore-prefixed key the pipeline attaches). -/
structure Field where
  label : Option String
  fieldType : Option String
  type : Option String
  coordinates : Option CoordDict
  box : Option CoordDict
  tableConfig : Option TableConfig
  dateSegments : Option (List CoordDict)
  segments : Option (List CoordDict)
  quadrant : Option ℚ
deriving DecidableEq

instance : Inhabited Field :=
  ⟨⟨none, none, none, none, none, none, none, none, none⟩⟩

/-- Python `str.lower()` (character-wise lowercasing). -/
def pyLower (s : String) : String := ⟨s.data.map Char.toLower⟩

/-- Python `str.strip()`: drop leading and trailing whitespace. -/
def pyStrip (s : String) : String :=
  ⟨((s.data.dropWhile Char.isWhitespace).reverse.dropWhile Char.isWhitespace).reverse⟩

/-- Normalisation `s.lower().strip()` used throughout the engine. -/
def pyNorm (s : String) : String := pyStrip (pyLower s)

/-- Translation of `calculate_iou` (scorer.py lines 67-110): axis-aligned
intersection over union of two coordinate dicts, missing keys defaulting
to `0` as in `coords.get(key, 0)`. -/
def calculate_iou (pred_coords truth_coords : CoordDict) : ℚ :=
  let p_left := pred_coords.left.getD 0
  let p_top := pred_coords.top.getD 0
  let p_right := p_left + pred_coords.width.getD 0
  let p_bottom := p_top + pred_coords.height.getD 0
  let t_left := truth_coords.left.getD 0
  let t_top := truth_coords.top.getD 0
  let t_right := t_left + truth_coords.width.getD 0
  let t_bottom := t_top + truth_coords.height.getD 0
  let inter_left := max p_left t_left
  let inter_top := max p_top t_top
  let inter_right := min p_right t_right
  let inter_bottom := min p_bottom t_bottom
  if inter_right ≤ inter_left ∨ inter_bottom ≤ inter_top then 0
  else
    let inter_area := (inter_right - inter_left) * (inter_bottom - inter_top)
    let p_area := (p_right - p_left) * (p_bottom - p_top)
    let t_area := (t_right - t_left) * (t_bottom - t_top)
    let union_area := p_area + t_area - inter_area
    if union_area ≤ 0 then 0 else inter_area / union_area

/-- Weighted edit cost used by `Levenshtein.ratio` (the python-Levenshtein
library function called by `calculate_label_similarity`): insertions and
deletions cost 1, substitutions cost 2. -/
def editCost : List Char → List Char → ℕ
  | [], ys => ys.length
  | x :: xs, [] => (x :: xs).length
  | x :: xs, y :: ys =>
    if x = y then editCost xs ys
    else min (editCost xs (y :: ys) + 1) (min (editCost (x :: xs) ys + 1) (editCost xs ys + 2))
termination_by a b => a.length + b.length
decreasing_by all_goals simp_arith

/-- Model of `Levenshtein.ratio(a, b)`: `(|a| + |b| - editCost(a, b)) /
(|a| + |b|)`, and `1` for two empty strings. -/
def lev_similarity (a b : String) : ℚ :=
  let total : ℕ := a.length + b.length
  if total = 0 then 1
  else ((total : ℚ) - (editCost a.data b.data : ℚ)) / (total : ℚ)

/-- Translation of `calculate_label_similarity` (scorer.py lines 113-136):
zero when either raw label is falsy (empty), `1` when the lowercased and
stripped labels coincide, else the Levenshtein ratio of the normalised
labels. -/
def calculate_label_similarity (pred_label truth_label : String) : ℚ :=
  if pred_label = "" ∨ truth_label = "" then 0
  else
    let norm_pred := pyNorm pred_label
    let norm_truth := pyNorm truth_label
    if norm_pred = norm_truth then 1
    else lev_similarity norm_pred norm_truth

/-- Translation of `types_compatible` (scorer.py lines 139-170). -/
def types_compatible (pred_type truth_type : String) : Bool :=
  let pred := pyNorm pred_type
  let truth := pyNorm truth_type
  let compatible_pairs : List (String × String) :=
    [("text", "textarea"), ("textarea", "text"),
     ("date", "linkeddate"), ("linkeddate", "date")]
  pred == truth ||
    compatible_pairs.contains (pred, truth) || compatible_pairs.contains (truth, pred)

/-- Minimum of a list of rationals, matching Python `min` over a non-empty
generator (the empty case is unreachable behind the caller's guard). -/
def listMin : List ℚ → ℚ
  | [] => 0
  | x :: xs => xs.foldl min x

/-- Maximum of a list of rationals, as `listMin`. -/
def listMax : List ℚ → ℚ
  | [] => 0
  | x :: xs => xs.foldl max x

/-- Translation of `_bounding_box_from_segments` (scorer.py lines 277-292).
The returned dict carries all four keys explicitly. -/
def bounding_box_from_segments (segments : List CoordDict) : CoordDict :=
  if segments.isEmpty then ⟨some 0, some 0, some 0, some 0⟩
  else
    let min_left := listMin (segments.map fun s => s.left.getD 0)
    let min_top := listMin (segments.map fun s => s.top.getD 0)
    let max_right := listMax (segments.map fun s => s.left.getD 0 + s.width.getD 0)
    let max_bottom := listMax (segments.map fun s => s.top.getD 0 + s.height.getD 0)
    ⟨some min_left, some min_top, some (max_right - min_left), some (max_bottom - min_top)⟩

/-- Coordinates used for a predicted field inside `match_fields`:
`pred.get("coordinates", pred.get("box", {}))`. -/
def predCoords (f : Field) : CoordDict :=
  f.coordinates.getD (f.box.getD emptyD)

/-- Coordinates used for a ground-truth field inside `match_fields`
(lines 204-212 and 242-247): start from `truth.get("coordinates", {})`,
overridden by `tableConfig.coordinates` whenever the `tableConfig` key is
present, else replaced by the segment bounding box when `dateSegments` is
present and the coordinates dict is falsy. -/
def truthCoords (f : Field) : CoordDict :=
  let truth_coords := f.coordinates.getD emptyD
  match f.tableConfig with
  | some tc => tc.coordinates.getD emptyD
  | none =>
    match f.dateSegments with
    | some segs => if truth_coords.isEmptyD then bounding_box_from_segments segs else truth_coords
    | none => truth_coords

/-- The `label` value a field contributes to scoring: `f.get("label", "")`. -/
def fieldLabel (f : Field) : String := f.label.getD ""

/-- The type string a field contributes:
`f.get("fieldType", f.get("type", "unknown"))`. -/
def fieldTypeOf (f : Field) : String := f.fieldType.getD (f.type.getD "unknown")

/-- A matched pair, translation of the `FieldMatch` dataclass. -/
structure FieldMatch where
  predicted : Field
  ground_truth : Field
  iou : ℚ
  label_similarity : ℚ
  type_correct : Bool

/-- One entry of the score matrix of `match_fields` (lines 200-227):
`0.6·IoU + 0.4·labelSimilarity`, forced to `0` when the IoU is below the
threshold.  The Python code stores the negated value in a cost matrix for
minimisation; we keep the score and maximise. -/
def matchScore (pred truth : Field) (iou_threshold : ℚ) : ℚ :=
  let iou := calculate_iou (predCoords pred) (truthCoords truth)
  let label_sim := calculate_label_similarity (fieldLabel pred) (fieldLabel truth)
  let score := 6/10 * iou + 4/10 * label_sim
  if iou < iou_threshold then 0 else score

/-- Ordered selections of `k` distinct elements from a pool, enumerated in
lexicographic order of positions.  Used to model the set of one-to-one
assignments searched by `scipy.optimize.linear_sum_assignment`. -/
def injections : ℕ → List ℕ → List (List ℕ)
  | 0, _ => [[]]
  | k + 1, pool => pool.bind fun c => (injections k (pool.erase c)).map fun rest => c :: rest

/-- All one-to-one pairings of `min n m` rows and columns of an `n × m`
matrix, as (row, column) pair lists. -/
def candidateAssignments (n m : ℕ) : List (List (ℕ × ℕ)) :=
  if n ≤ m then (injections n (List.range m)).map fun cols => (List.range n).zip cols
  else (injections m (List.range n)).map fun rows => rows.zip (List.range m)

/-- Total score of an assignment. -/
def totalScore (score : ℕ → ℕ → ℚ) (a : List (ℕ × ℕ)) : ℚ :=
  (a.map fun p => score p.1 p.2).sum

/-- Model of `scipy.optimize.linear_sum_assignment` on the negated score
matrix: returns a one-to-one assignment of `min n m` (row, column) pairs
with maximal total score.  Ties keep the earlier candidate in enumeration
order (the library's tie-breaking is implementation defined; spec §4.3). -/
def linear_sum_assignment (score : ℕ → ℕ → ℚ) (n m : ℕ) : List (ℕ × ℕ) :=
  match candidateAssignments n m with
  | [] => []
  | c :: cs => cs.foldl (fun best a => if totalScore score best < totalScore score a then a else best) c

/-- Score-matrix entry of `match_fields` for row `i`, column `j`. -/
def scoreAt (predicted ground_truth : List Field) (iou_threshold : ℚ) (i j : ℕ) : ℚ :=
  matchScore (predicted.getD i default) (ground_truth.getD j default) iou_threshold

/-- Assignment pairs retained as true matches: the solver output filtered
to pairs with strictly positive score (`-cost_matrix[i, j] > 0`). -/
def retainedPairs (predicted ground_truth : List Field) (iou_threshold : ℚ) : List (ℕ × ℕ) :=
  (linear_sum_assignment (scoreAt predicted ground_truth iou_threshold)
      predicted.length ground_truth.length).filter
    fun p => decide (0 < scoreAt predicted ground_truth iou_threshold p.1 p.2)

/-- The `FieldMatch` record built for a retained pair (lines 238-265). -/
def mkFieldMatch (pred truth : Field) : FieldMatch :=
  { predicted := pred
    ground_truth := truth
    iou := calculate_iou (predCoords pred) (truthCoords truth)
    label_similarity := calculate_label_similarity (fieldLabel pred) (fieldLabel truth)
    type_correct := types_compatible (fieldTypeOf pred) (fieldTypeOf truth) }

/-- Translation of `match_fields` (scorer.py lines 173-274).  Returns
`(matched, missed, extra)`; the row/column bookkeeping of the Python code
(`matched_pred_indices`, `matched_truth_indices`) appears through
`retainedPairs`. -/
def match_fields (predicted ground_truth : List Field) (iou_threshold : ℚ := 1/10) :
    List FieldMatch × List Field × List Field :=
  if predicted = [] ∨ ground_truth = [] then ([], ground_truth, predicted)
  else
    let pairs := retainedPairs predicted ground_truth iou_threshold
    let matched := pairs.map fun p =>
      mkFieldMatch (predicted.getD p.1 default) (ground_truth.getD p.2 default)
    let mts := pairs.map Prod.snd
    let mps := pairs.map Prod.fst
    let missed := ((List.range ground_truth.length).filter fun j => !(mts.contains j)).map
      fun j => ground_truth.getD j default
    let extra := ((List.range predicted.length).filter fun i => !(mps.contains i)).map
      fun i => predicted.getD i default
    (matched, missed, extra)

/-- Caller-supplied weights mapping; each key may be absent. -/
structure Weights where
  detection_rate : Option ℚ
  precision_rate : Option ℚ
  avg_iou : Option ℚ
  type_accuracy : Option ℚ
  label_accuracy : Option ℚ

/-- The default weights installed when the caller passes no mapping. -/
def defaultWeights : Weights :=
  ⟨some (25/100), some (10/100), some (30/100), some (20/100), some (15/100)⟩

/-- Lookup `weights[key]`; a missing key is Python's `KeyError`. -/
def getWeight (v : Option ℚ) (key : String) : Except String ℚ :=
  match v with
  | some w => Except.ok w
  | none => Except.error key

/-- Translation of the `ExtractionScore` dataclass.  The IoU histogram is
kept as its four bucket counts, and the type-confusion dict as its count
function. -/
structure ExtractionScore where
  detection_rate : ℚ
  precision_rate : ℚ
  avg_iou : ℚ
  iou_distribution : ℕ × ℕ × ℕ × ℕ
  type_accuracy : ℚ
  type_confusion : String → String → ℕ
  label_accuracy : ℚ
  table_detection : Bool
  table_cell_accuracy : ℚ
  matched_fields : List FieldMatch
  missed_fields : List Field
  extra_fields : List Field
  overall_score : ℚ

/-- Translation of `score_extraction` (scorer.py lines 295-400).  A
missing key in a caller-supplied weights mapping surfaces as
`Except.error key`, modelling the `KeyError` raised when computing
`overall_score`; every other input returns `Except.ok`. -/
def score_extraction (predicted ground_truth : List Field)
    (weights : Option Weights := none) : Except String ExtractionScore :=
  let w := weights.getD defaultWeights
  let r := match_fields predicted ground_truth
  let matched := r.1
  let missed := r.2.1
  let extra := r.2.2
  let n_truth := ground_truth.length
  let n_pred := predicted.length
  let n_matched := matched.length
  let detection_rate : ℚ := if 0 < n_truth then (n_matched : ℚ) / (n_truth : ℚ) * 100 else 0
  let precision_rate : ℚ := if 0 < n_pred then (n_matched : ℚ) / (n_pred : ℚ) * 100 else 0
  let ious := matched.map fun m => m.iou
  let avg_iou : ℚ := if ious.isEmpty then 0 else ious.sum / (ious.length : ℚ) * 100
  let iou_distribution :=
    (ious.countP fun iou => decide (iou < 25/100),
     ious.countP fun iou => decide (25/100 ≤ iou ∧ iou < 5/10),
     ious.countP fun iou => decide (5/10 ≤ iou ∧ iou < 75/100),
     ious.countP fun iou => decide (75/100 ≤ iou))
  let type_correct_count := matched.countP fun m => m.type_correct
  let type_accuracy : ℚ :=
    if 0 < n_matched then (type_correct_count : ℚ) / (n_matched : ℚ) * 100 else 0
  let type_confusion : String → String → ℕ := fun truth_type pred_type =>
    matched.countP fun m =>
      (m.ground_truth.fieldType.getD "unknown" == truth_type) &&
      (m.predicted.fieldType.getD (m.predicted.type.getD "unknown") == pred_type)
  let label_sims := matched.map fun m => m.label_similarity
  let label_accuracy : ℚ :=
    if label_sims.isEmpty then 0 else label_sims.sum / (label_sims.length : ℚ) * 100
  let truth_tables := ground_truth.filter fun f => f.fieldType == some "table"
  let pred_tables := predicted.filter fun f => f.fieldType == some "table"
  let table_detection : Bool :=
    if truth_tables.isEmpty then true else decide (truth_tables.length ≤ pred_tables.length)
  let table_matches := matched.filter fun m => m.ground_truth.fieldType == some "table"
  let table_cell_accuracy : ℚ :=
    if table_matches.isEmpty then 100
    else (table_matches.map fun m => m.iou).sum / (table_matches.length : ℚ) * 100
  match getWeight w.detection_rate "detection_rate" with
  | Except.error e => Except.error e
  | Except.ok wd =>
  match getWeight w.precision_rate "precision_rate" with
  | Except.error e => Except.error e
  | Except.ok wp =>
  match getWeight w.avg_iou "avg_iou" with
  | Except.error e => Except.error e
  | Except.ok wi =>
  match getWeight w.type_accuracy "type_accuracy" with
  | Except.error e => Except.error e
  | Except.ok wt =>
  match getWeight w.label_accuracy "label_accuracy" with
  | Except.error e => Except.error e
  | Except.ok wl =>
  Except.ok
    { detection_rate := detection_rate
      precision_rate := precision_rate
      avg_iou := avg_iou
      iou_distribution := iou_distribution
      type_accuracy := type_accuracy
      type_confusion := type_confusion
      label_accuracy := label_accuracy
      table_detection := table_detection
      table_cell_accuracy := table_cell_accuracy
      matched_fields := matched
      missed_fields := missed
      extra_fields := extra
      overall_score := wd * detection_rate + wp * precision_rate + wi * avg_iou +
        wt * type_accuracy + wl * label_accuracy }

/-! Boundary deduplicator (`core/deduplicator.py`). -/

/-- Translation of `coordinates_match` (deduplicator.py lines 9-34). -/
def coordinates_match (coords1 coords2 : CoordDict) (tolerance : ℚ := 3) : Bool :=
  if coords1.isEmptyD || coords2.isEmptyD then false
  else
    decide (|coords1.left.getD 0 - coords2.left.getD 0| ≤ tolerance) &&
    decide (|coords1.top.getD 0 - coords2.top.getD 0| ≤ tolerance) &&
    decide (|coords1.width.getD 0 - coords2.width.getD 0| ≤ tolerance) &&
    decide (|coords1.height.getD 0 - coords2.height.getD 0| ≤ tolerance)

/-- Translation of `labels_match` (deduplicator.py lines 37-55). -/
def labels_match (label1 label2 : String) : Bool :=
  if label1 = "" ∨ label2 = "" then false
  else pyNorm label1 == pyNorm label2

/-- Translation of `fields_match` (deduplicator.py lines 58-93): same
lowercased type, matching labels and coordinates within tolerance.  The
type keys are lowercased but not stripped here, hence `pyLower`. -/
def fields_match (field1 field2 : Field) (coord_tolerance : ℚ := 3) : Bool :=
  let type1 := pyLower (field1.fieldType.getD (field1.type.getD ""))
  let type2 := pyLower (field2.fieldType.getD (field2.type.getD ""))
  if type1 ≠ type2 then false
  else if !(labels_match (field1.label.getD "") (field2.label.getD "")) then false
  else
    coordinates_match (field1.coordinates.getD (field1.box.getD emptyD))
      (field2.coordinates.getD (field2.box.getD emptyD)) coord_tolerance

/-- The quadrant sort key `f.get("_quadrant", 0)`. -/
def quadKey (f : Field) : ℚ := f.quadrant.getD 0

/-- Stable insertion of a field into a quadrant-sorted list: the inserted
field goes before every element whose key is not strictly smaller, so
elements processed earlier keep their place among equal keys. -/
def insertQuad (f : Field) : List Field → List Field
  | [] => [f]
  | g :: gs => if quadKey g < quadKey f then g :: insertQuad f gs else f :: g :: gs

/-- Model of Python's stable `sorted(fields, key=lambda f: f.get("_quadrant", 0))`. -/
def sortQuad (fields : List Field) : List Field :=
  fields.foldr insertQuad []

/-- Removal of the internal region marker: the dict comprehension
`{k: v for k, v in field.items() if not k.startswith("_")}`; `_quadrant`
is the only underscore key in the model. -/
def stripQuad (f : Field) : Field := { f with quadrant := none }

/-- The scan of `deduplicate_boundary_fields` over the quadrant-sorted
list: keep the head (stripped of the marker), discard every later field
that matches it, continue.  This is the recursive form of the Python
`seen_indices` loop (lines 123-141). -/
def dedupScan (tolerance : ℚ) : List Field → List Field
  | [] => []
  | f :: rest =>
    stripQuad f :: dedupScan tolerance (rest.filter fun g => !(fields_match f g tolerance))
termination_by l => l.length
decreasing_by
  simp only [List.length_cons]
  exact Nat.lt_succ_of_le (List.length_filter_le _ _)

/-- Translation of `deduplicate_boundary_fields` (deduplicator.py lines
96-143). -/
def deduplicate_boundary_fields (fields : List Field) (tolerance : ℚ := 3) : List Field :=
  dedupScan tolerance (sortQuad fields)

/-- Coordinates read by `deduplicate_by_position`:
`field.get("coordinates", field.get("box", {}))`. -/
def posCoords (f : Field) : CoordDict :=
  f.coordinates.getD (f.box.getD emptyD)

/-- The accumulator loop of `deduplicate_by_position`: `kept` is the
`deduplicated` list built so far; a field with a falsy coordinates dict
is appended unconditionally, otherwise it is dropped exactly when some
already-kept field's coordinates match it within tolerance. -/
def dedupPosAux (tolerance : ℚ) (kept : List Field) : List Field → List Field
  | [] => []
  | f :: rest =>
    let coords := posCoords f
    if coords.isEmptyD then f :: dedupPosAux tolerance (kept ++ [f]) rest
    else if kept.any fun existing => coordinates_match coords (posCoords existing) tolerance then
      dedupPosAux tolerance kept rest
    else f :: dedupPosAux tolerance (kept ++ [f]) rest

/-- Translation of `deduplicate_by_position` (deduplicator.py lines
146-184). -/
def deduplicate_by_position (fields : List Field) (tolerance : ℚ := 2) : List Field :=
  dedupPosAux tolerance [] fields

/-! Spec-side definitions for the refinement claim about the Geometry
Resolver.  These follow the words of spec §4.1, not the code. -/

/-- Modelled from the spec (§4.1, steps 3-4): the `dateSegments` bounding
box when present and non-empty, else the degenerate rectangle
`{left: 0, top: 0, width: 0, height: 0}`. -/
def specResolveDate (f : Field) : CoordDict :=
  match f.dateSegments with
  | some segs =>
    if segs.isEmpty then ⟨some 0, some 0, some 0, some 0⟩
    else
      let lefts := segs.map fun s => s.left.getD 0
      let tops := segs.map fun s => s.top.getD 0
      let rights := segs.map fun s => s.left.getD 0 + s.width.getD 0
      let bottoms := segs.map fun s => s.top.getD 0 + s.height.getD 0
      ⟨some (listMin lefts), some (listMin tops),
       some (listMax rights - listMin lefts), some (listMax bottoms - listMin tops)⟩
  | none => ⟨some 0, some 0, some 0, some 0⟩

/-- Modelled from the spec (§4.1, steps 2-4): the fallback applied when a
field's own coordinates are absent or empty — `tableConfig.coordinates`
for a `table` field, else the minimal enclosing box of `dateSegments`,
else the degenerate rectangle. -/
def specResolveRest (f : Field) : CoordDict :=
  match f.tableConfig with
  | some tc =>
    if f.fieldType.getD "" = "table" then
      match tc.coordinates with
      | some c => c
      | none => specResolveDate f
    else specResolveDate f
  | none => specResolveDate f

/-- Modelled from the spec (§4.1, step 1): a field's own coordinates when
present and non-empty, else the fallback chain. -/
def resolveGeometrySpec (f : Field) : CoordDict :=
  match f.coordinates with
  | some c => if c.isEmptyD then specResolveRest f else c
  | none => specResolveRest f

/-- The four numbers a coordinate dict feeds into `calculate_iou`
(missing keys default to zero): the rectangle a dict effectively denotes. -/
def asRect (c : CoordDict) : ℚ × ℚ × ℚ × ℚ :=
  (c.left.getD 0, c.top.getD 0, c.width.getD 0, c.height.getD 0)

/-- The resolution the scorer actually applies once the `tableConfig` and
`coordinates` cases have passed, phrased as the amended claim words it:
the `dateSegments` bounding box when that key is present, else the empty
dict. -/
def truthResolveAmendedFallback (f : Field) : CoordDict :=
  match f.dateSegments with
  | some segs => bounding_box_from_segments segs
  | none => emptyD

/-- The ground-truth-side resolution as the amended claim words it: a
present `tableConfig` key wins outright (its `coordinates`, or the empty
dict, regardless of field type); else the field's own coordinates when
present and non-empty; else the `dateSegments` fallback. -/
def truthResolveAmended (f : Field) : CoordDict :=
  match f.tableConfig with
  | some tc =>
    match tc.coordinates with
    | some c => c
    | none => emptyD
  | none =>
    match f.coordinates with
    | some c => if c.isEmptyD then truthResolveAmendedFallback f else c
    | none => truthResolveAmendedFallback f

/-- The predicted-side resolution as the amended claim words it: the
`coordinates` entry when the key is present (even when empty), else the
`box` entry, else the empty dict; nested geometry is never consulted. -/
def predResolveAmended (f : Field) : CoordDict :=
  match f.coordinates with
  | some c => c
  | none =>
    match f.box with
    | some b => b
    | none => emptyD

/-! Helper lemmas about `calculate_iou`. -/

theorem calculate_iou_comm (A B : CoordDict) : calculate_iou A B = calculate_iou B A := by
  simp only [calculate_iou]
  rw [min_comm (B.left.getD 0 + B.width.getD 0), max_comm (B.left.getD 0),
    min_comm (B.top.getD 0 + B.height.getD 0), max_comm (B.top.getD 0),
    add_comm ((B.left.getD 0 + B.width.getD 0 - B.left.getD 0) *
      (B.top.getD 0 + B.height.getD 0 - B.top.getD 0))]

theorem calculate_iou_nonneg (A B : CoordDict) : 0 ≤ calculate_iou A B := by
  simp only [calculate_iou]
  split_ifs with h1 h2
  · exact le_refl 0
  · exact le_refl 0
  · push_neg at h1 h2
    obtain ⟨ha, hb⟩ := h1
    exact le_of_lt (div_pos (mul_pos (sub_pos.mpr ha) (sub_pos.mpr hb)) h2)

theorem calculate_iou_le_one (A B : CoordDict) : calculate_iou A B ≤ 1 := by
  simp only [calculate_iou]
  split_ifs with h1 h2
  · exact zero_le_one
  · exact zero_le_one
  · push_neg at h1 h2
    obtain ⟨ha, hb⟩ := h1
    rw [div_le_one h2]
    have hw1 : max (A.left.getD 0) (B.left.getD 0) < min (A.left.getD 0 + A.width.getD 0) (B.left.getD 0 + B.width.getD 0) := ha
    have hh1 : max (A.top.getD 0) (B.top.getD 0) < min (A.top.getD 0 + A.height.getD 0) (B.top.getD 0 + B.height.getD 0) := hb
    have hal : A.left.getD 0 ≤ max (A.left.getD 0) (B.left.getD 0) := le_max_left _ _
    have hbl : B.left.getD 0 ≤ max (A.left.getD 0) (B.left.getD 0) := le_max_right _ _
    have har : min (A.left.getD 0 + A.width.getD 0) (B.left.getD 0 + B.width.getD 0) ≤ A.left.getD 0 + A.width.getD 0 := min_le_left _ _
    have hbr : min (A.left.getD 0 + A.width.getD 0) (B.left.getD 0 + B.width.getD 0) ≤ B.left.getD 0 + B.width.getD 0 := min_le_right _ _
    have hat : A.top.getD 0 ≤ max (A.top.getD 0) (B.top.getD 0) := le_max_left _ _
    have hbt : B.top.getD 0 ≤ max (A.top.getD 0) (B.top.getD 0) := le_max_right _ _
    have hab : min (A.top.getD 0 + A.height.getD 0) (B.top.getD 0 + B.height.getD 0) ≤ A.top.getD 0 + A.height.getD 0 := min_le_left _ _
    have hbb : min (A.top.getD 0 + A.height.getD 0) (B.top.getD 0 + B.height.getD 0) ≤ B.top.getD 0 + B.height.getD 0 := min_le_right _ _
    nlinarith [mul_pos (sub_pos.mpr hw1) (sub_pos.mpr hh1)]

theorem calculate_iou_self (c : CoordDict) (hw : 0 < c.width.getD 0)
    (hh : 0 < c.height.getD 0) : calculate_iou c c = 1 := by
  simp only [calculate_iou, max_self, min_self]
  rw [if_neg, if_neg]
  · have h1 : c.left.getD 0 + c.width.getD 0 - c.left.getD 0 = c.width.getD 0 := by ring
    have h2 : c.top.getD 0 + c.height.getD 0 - c.top.getD 0 = c.height.getD 0 := by ring
    rw [h1, h2]
    have hwh : (0:ℚ) < c.width.getD 0 * c.height.getD 0 := mul_pos hw hh
    have : c.width.getD 0 * c.height.getD 0 + c.width.getD 0 * c.height.getD 0 -
        c.width.getD 0 * c.height.getD 0 = c.width.getD 0 * c.height.getD 0 := by ring
    rw [this, div_self (ne_of_gt hwh)]
  · intro h
    have h1 : c.left.getD 0 + c.width.getD 0 - c.left.getD 0 = c.width.getD 0 := by ring
    have h2 : c.top.getD 0 + c.height.getD 0 - c.top.getD 0 = c.height.getD 0 := by ring
    rw [h1, h2] at h
    nlinarith [mul_pos hw hh]
  · intro h
    rcases h with h | h
    · linarith
    · linarith

/-- C4: `calculate_iou` is symmetric, always lies in `[0, 1]`, equals `1`
on any rectangle with positive width and height paired with itself, and
equals `0` whenever the intersection has non-positive width or height or
the union area is non-positive. -/
theorem C4_iou_symmetry_bounds :
    ∀ A B : CoordDict,
      calculate_iou A B = calculate_iou B A ∧
      0 ≤ calculate_iou A B ∧ calculate_iou A B ≤ 1 ∧
      (0 < A.width.getD 0 → 0 < A.height.getD 0 → calculate_iou A A = 1) ∧
      ((min (A.left.getD 0 + A.width.getD 0) (B.left.getD 0 + B.width.getD 0) ≤
          max (A.left.getD 0) (B.left.getD 0) ∨
        min (A.top.getD 0 + A.height.getD 0) (B.top.getD 0 + B.height.getD 0) ≤
          max (A.top.getD 0) (B.top.getD 0)) → calculate_iou A B = 0) ∧
      (A.width.getD 0 * A.height.getD 0 + B.width.getD 0 * B.height.getD 0 -
          (min (A.left.getD 0 + A.width.getD 0) (B.left.getD 0 + B.width.getD 0) -
            max (A.left.getD 0) (B.left.getD 0)) *
          (min (A.top.getD 0 + A.height.getD 0) (B.top.getD 0 + B.height.getD 0) -
            max (A.top.getD 0) (B.top.getD 0)) ≤ 0 →
        calculate_iou A B = 0) := by
  intro A B
  refine ⟨calculate_iou_comm A B, calculate_iou_nonneg A B, calculate_iou_le_one A B,
    fun hw hh => calculate_iou_self A hw hh, ?_, ?_⟩
  · intro h
    simp only [calculate_iou]
    rw [if_pos h]
  · intro h
    simp only [calculate_iou]
    split_ifs with h1 h2
    · rfl
    · rfl
    · exfalso
      apply h2
      have heq : (A.left.getD 0 + A.width.getD 0 - A.left.getD 0) *
            (A.top.getD 0 + A.height.getD 0 - A.top.getD 0) +
          (B.left.getD 0 + B.width.getD 0 - B.left.getD 0) *
            (B.top.getD 0 + B.height.getD 0 - B.top.getD 0) =
          A.width.getD 0 * A.height.getD 0 + B.width.getD 0 * B.height.getD 0 := by ring
      linarith [heq]

/-- Witness for C4 at the concrete rectangles `{0, 0, 10, 10}` (self IoU
one) and `{20, 20, 10, 10}` (disjoint, IoU zero). -/
theorem C4_iou_symmetry_bounds_witness :
    calculate_iou ⟨some 0, some 0, some 10, some 10⟩ ⟨some 0, some 0, some 10, some 10⟩ = 1 ∧
    calculate_iou ⟨some 0, some 0, some 10, some 10⟩ ⟨some 20, some 20, some 10, some 10⟩ = 0 := by
  constructor
  · exact (C4_iou_symmetry_bounds ⟨some 0, some 0, some 10, some 10⟩
      ⟨some 0, some 0, some 10, some 10⟩).2.2.2.1 (by norm_num) (by norm_num)
  · exact (C4_iou_symmetry_bounds ⟨some 0, some 0, some 10, some 10⟩
      ⟨some 20, some 20, some 10, some 10⟩).2.2.2.2.1 (by norm_num)

/-! Helper lemmas about the label similarity. -/

theorem editCost_le_sum : ∀ xs ys : List Char, editCost xs ys ≤ xs.length + ys.length := by
  intro xs ys
  induction xs, ys using editCost.induct with
  | case1 ys => simp [editCost]
  | case2 x xs => simp [editCost]
  | case3 xs y ys ih =>
    rw [editCost, if_pos rfl]
    simp only [List.length_cons]
    omega
  | case4 x xs y ys h ih1 ih2 ih3 =>
    rw [editCost, if_neg h]
    simp only [List.length_cons]
    have := min_le_left (editCost xs (y :: ys) + 1)
      (min (editCost (x :: xs) ys + 1) (editCost xs ys + 2))
    omega

theorem lev_similarity_nonneg (a b : String) : 0 ≤ lev_similarity a b := by
  simp only [lev_similarity]
  split_ifs with h
  · exact zero_le_one
  · apply div_nonneg
    · have hc : editCost a.data b.data ≤ a.length + b.length := editCost_le_sum a.data b.data
      have : (editCost a.data b.data : ℚ) ≤ ((a.length + b.length : ℕ) : ℚ) := by
        exact_mod_cast hc
      push_cast at this ⊢
      linarith
    · positivity

theorem lev_similarity_le_one (a b : String) : lev_similarity a b ≤ 1 := by
  simp only [lev_similarity]
  split_ifs with h
  · exact le_refl 1
  · have hpos : (0:ℚ) < ((a.length + b.length : ℕ) : ℚ) := by
      have : 0 < a.length + b.length := Nat.pos_of_ne_zero h
      exact_mod_cast this
    rw [div_le_one (by push_cast at hpos ⊢; linarith)]
    have : (0:ℚ) ≤ (editCost a.data b.data : ℚ) := by positivity
    push_cast at hpos ⊢
    linarith

theorem label_similarity_nonneg (a b : String) : 0 ≤ calculate_label_similarity a b := by
  simp only [calculate_label_similarity]
  split_ifs
  · exact le_refl 0
  · exact zero_le_one
  · exact lev_similarity_nonneg _ _

theorem label_similarity_le_one (a b : String) : calculate_label_similarity a b ≤ 1 := by
  simp only [calculate_label_similarity]
  split_ifs
  · exact zero_le_one
  · exact le_refl 1
  · exact lev_similarity_le_one _ _

theorem label_similarity_self (s : String) (h : s ≠ "") :
    calculate_label_similarity s s = 1 := by
  simp only [calculate_label_similarity]
  rw [if_neg (by simp [h])]
  simp

/-- C5 counterexample: the code tests emptiness on the raw labels before
normalising, so two all-whitespace labels — whose normalised forms are
both empty — yield similarity `1`, not `0` as the claim states. -/
theorem C5_label_similarity_counterexample :
    calculate_label_similarity " " " " = 1 ∧ pyNorm " " = "" ∧ (1:ℚ) ≠ 0 := by
  refine ⟨?_, by decide, by norm_num⟩
  have h1 : (" " = "" ∨ " " = "") = False := by simp
  simp only [calculate_label_similarity, h1]
  simp

/-- C5 (amended): `calculate_label_similarity` returns `0` when either
raw label is empty; otherwise it lowercases and strips both labels and
returns `1.0` when the normalised labels are equal (including when both
normalise to the empty string); otherwise it returns
`(len(a') + len(b') − editCost(a', b')) / (len(a') + len(b'))` over the
normalised labels, with substitutions costing 2 and insertions/deletions
costing 1; the result always lies in `[0, 1]`. -/
theorem C5_label_similarity_amended :
    ∀ a b : String,
      ((a = "" ∨ b = "") → calculate_label_similarity a b = 0) ∧
      (a ≠ "" → b ≠ "" → pyNorm a = pyNorm b → calculate_label_similarity a b = 1) ∧
      (a ≠ "" → b ≠ "" → pyNorm a ≠ pyNorm b →
        calculate_label_similarity a b =
          (((pyNorm a).length + (pyNorm b).length : ℕ) -
              (editCost (pyNorm a).data (pyNorm b).data : ℚ)) /
            (((pyNorm a).length + (pyNorm b).length : ℕ) : ℚ)) ∧
      0 ≤ calculate_label_similarity a b ∧ calculate_label_similarity a b ≤ 1 := by
  intro a b
  refine ⟨?_, ?_, ?_, label_similarity_nonneg a b, label_similarity_le_one a b⟩
  · intro h
    simp only [calculate_label_similarity]
    rw [if_pos h]
  · intro ha hb h
    simp only [calculate_label_similarity]
    rw [if_neg (by simp [ha, hb]), if_pos h]
  · intro ha hb h
    simp only [calculate_label_similarity]
    rw [if_neg (by simp [ha, hb]), if_neg h]
    have htot : (pyNorm a).length + (pyNorm b).length ≠ 0 := by
      intro h0
      apply h
      have h1 : (pyNorm a).length = 0 := by omega
      have h2 : (pyNorm b).length = 0 := by omega
      have e1 : pyNorm a = "" := by
        cases hpa : pyNorm a with
        | mk d => rw [hpa] at h1; simp [String.length] at h1; simp [h1]
      have e2 : pyNorm b = "" := by
        cases hpb : pyNorm b with
        | mk d => rw [hpb] at h2; simp [String.length] at h2; simp [h2]
      rw [e1, e2]
    simp only [lev_similarity]
    rw [if_neg htot]

/-- Witness for C5 (amended) at `"ab"` versus `"b"`: distinct non-empty
labels, so the Levenshtein-ratio branch applies. -/
theorem C5_label_similarity_amended_witness :
    pyNorm "ab" ≠ pyNorm "b" ∧
    calculate_label_similarity "ab" "b" =
      (((pyNorm "ab").length + (pyNorm "b").length : ℕ) -
          (editCost (pyNorm "ab").data (pyNorm "b").data : ℚ)) /
        (((pyNorm "ab").length + (pyNorm "b").length : ℕ) : ℚ) :=
  ⟨by decide, (C5_label_similarity_amended "ab" "b").2.2.1 (by decide) (by decide) (by decide)⟩

/-! Helper lemmas about the deduplicator. -/

theorem coordinates_match_false_of_empty (c1 c2 : CoordDict) (tol : ℚ)
    (h : c1.isEmptyD = true ∨ c2.isEmptyD = true) :
    coordinates_match c1 c2 tol = false := by
  simp only [coordinates_match]
  rcases h with h | h <;> simp [h]

theorem dedupPosAux_sublist (tol : ℚ) :
    ∀ (l kept : List Field), List.Sublist (dedupPosAux tol kept l) l := by
  intro l
  induction l with
  | nil => intro kept; simp [dedupPosAux]
  | cons f rest ih =>
    intro kept
    simp only [dedupPosAux]
    split_ifs with h1 h2
    · exact List.Sublist.cons₂ f (ih _)
    · exact List.Sublist.cons f (ih _)
    · exact List.Sublist.cons₂ f (ih _)

theorem dedupPosAux_filter_empty (tol : ℚ) :
    ∀ (l kept : List Field),
      ((dedupPosAux tol kept l).filter fun f => (posCoords f).isEmptyD) =
        l.filter fun f => (posCoords f).isEmptyD := by
  intro l
  induction l with
  | nil => intro kept; simp [dedupPosAux]
  | cons f rest ih =>
    intro kept
    simp only [dedupPosAux]
    split_ifs with h1 h2
    · simp only [List.filter_cons, h1, ih]
    · have hf : (posCoords f).isEmptyD = false := by
        cases h : (posCoords f).isEmptyD
        · rfl
        · exact absurd h h1
      simp only [List.filter_cons, hf, ih]
      simp
    · have hf : (posCoords f).isEmptyD = false := by
        cases h : (posCoords f).isEmptyD
        · rfl
        · exact absurd h h1
      simp only [List.filter_cons, hf, ih]

theorem stripQuad_quadrant (f : Field) : (stripQuad f).quadrant = none := rfl

theorem stripQuad_eq_self (f : Field) (h : f.quadrant = none) : stripQuad f = f := by
  cases f
  simp_all [stripQuad]

theorem fields_match_stripQuad_left (a b : Field) (tol : ℚ) :
    fields_match (stripQuad a) b tol = fields_match a b tol := rfl

theorem fields_match_stripQuad_right (a b : Field) (tol : ℚ) :
    fields_match a (stripQuad b) tol = fields_match a b tol := rfl

theorem insertQuad_perm (f : Field) : ∀ l : List Field, List.Perm (insertQuad f l) (f :: l) := by
  intro l
  induction l with
  | nil => simp [insertQuad]
  | cons g gs ih =>
    simp only [insertQuad]
    split_ifs with h
    · exact (ih.cons g).trans (List.Perm.swap f g gs)
    · exact List.Perm.refl _

theorem sortQuad_cons (f : Field) (rest : List Field) :
    sortQuad (f :: rest) = insertQuad f (sortQuad rest) := rfl

theorem sortQuad_perm : ∀ l : List Field, List.Perm (sortQuad l) l := by
  intro l
  induction l with
  | nil => simp [sortQuad]
  | cons f rest ih =>
    rw [sortQuad_cons]
    exact (insertQuad_perm f _).trans (ih.cons f)

theorem insertQuad_sorted (f : Field) :
    ∀ l : List Field, l.Pairwise (fun a b => quadKey a ≤ quadKey b) →
      (insertQuad f l).Pairwise (fun a b => quadKey a ≤ quadKey b) := by
  intro l
  induction l with
  | nil => intro _; simp [insertQuad]
  | cons g gs ih =>
    intro hs
    rw [List.pairwise_cons] at hs
    obtain ⟨hg, hgs⟩ := hs
    simp only [insertQuad]
    split_ifs with h
    · rw [List.pairwise_cons]
      refine ⟨?_, ih hgs⟩
      intro b hb
      have hmem := (insertQuad_perm f gs).mem_iff.mp hb
      rcases List.mem_cons.mp hmem with rfl | hbgs
      · exact le_of_lt h
      · exact hg b hbgs
    · rw [List.pairwise_cons]
      refine ⟨?_, List.pairwise_cons.mpr ⟨hg, hgs⟩⟩
      intro b hb
      rcases List.mem_cons.mp hb with rfl | hbgs
      · exact le_of_not_lt h
      · exact le_trans (le_of_not_lt h) (hg b hbgs)

theorem sortQuad_sorted (l : List Field) :
    (sortQuad l).Pairwise (fun a b => quadKey a ≤ quadKey b) := by
  induction l with
  | nil => simp [sortQuad]
  | cons f rest ih =>
    rw [sortQuad_cons]
    exact insertQuad_sorted f _ ih

theorem insertQuad_filter_key (f : Field) (v : ℚ) :
    ∀ l : List Field, l.Pairwise (fun a b => quadKey a ≤ quadKey b) →
      ((insertQuad f l).filter fun g => quadKey g == v) =
        (if quadKey f = v then [f] else []) ++ (l.filter fun g => quadKey g == v) := by
  intro l
  induction l with
  | nil =>
    intro _
    simp only [insertQuad, List.filter_cons, List.filter_nil]
    by_cases hf : quadKey f = v
    · simp [hf]
    · simp [hf]
  | cons g gs ih =>
    intro hs
    rw [List.pairwise_cons] at hs
    obtain ⟨hg, hgs⟩ := hs
    by_cases h : quadKey g < quadKey f
    · rw [insertQuad, if_pos h, List.filter_cons, ih hgs, List.filter_cons]
      by_cases hgv : quadKey g = v
      · have hfv : ¬ quadKey f = v := by
          intro hfv
          rw [hgv, hfv] at h
          exact lt_irrefl v h
        simp [hgv, hfv]
      · simp [hgv]
    · rw [insertQuad, if_neg h, List.filter_cons]
      by_cases hfv : quadKey f = v
      · simp [hfv]
      · simp [hfv]

theorem sortQuad_stable (l : List Field) (v : ℚ) :
    ((sortQuad l).filter fun g => quadKey g == v) = l.filter fun g => quadKey g == v := by
  induction l with
  | nil => simp [sortQuad]
  | cons f rest ih =>
    rw [sortQuad_cons, insertQuad_filter_key f v _ (sortQuad_sorted rest), ih, List.filter_cons]
    by_cases hfv : quadKey f = v
    · simp [hfv]
    · simp [hfv]

theorem sortQuad_eq_self_of_const (l : List Field) (h : ∀ f ∈ l, quadKey f = 0) :
    sortQuad l = l := by
  induction l with
  | nil => rfl
  | cons f rest ih =>
    rw [sortQuad_cons, ih fun g hg => h g (List.mem_cons_of_mem f hg)]
    cases rest with
    | nil => rfl
    | cons g gs =>
      simp only [insertQuad]
      rw [h g (by simp), h f (by simp)]
      simp

theorem dedupScan_nil (tol : ℚ) : dedupScan tol [] = [] := by
  rw [dedupScan]

theorem dedupScan_cons (tol : ℚ) (f : Field) (rest : List Field) :
    dedupScan tol (f :: rest) =
      stripQuad f :: dedupScan tol (rest.filter fun g => !(fields_match f g tol)) := by
  rw [dedupScan]

theorem dedupScan_strip_sublist (tol : ℚ) :
    ∀ (n : ℕ) (l : List Field), l.length ≤ n →
      ∃ sub, List.Sublist sub l ∧ dedupScan tol l = sub.map stripQuad := by
  intro n
  induction n with
  | zero =>
    intro l hl
    have hnil : l = [] := List.length_eq_zero.mp (Nat.le_zero.mp hl)
    subst hnil
    exact ⟨[], List.Sublist.refl [], by rw [dedupScan_nil]; rfl⟩
  | succ n ih =>
    intro l hl
    cases l with
    | nil => exact ⟨[], List.Sublist.refl [], by rw [dedupScan_nil]; rfl⟩
    | cons f rest =>
      have hlen : (rest.filter fun g => !(fields_match f g tol)).length ≤ n := by
        have := List.length_filter_le (fun g => !(fields_match f g tol)) rest
        simp only [List.length_cons] at hl
        omega
      obtain ⟨sub, hsub, heq⟩ := ih _ hlen
      refine ⟨f :: sub, List.Sublist.cons₂ f (hsub.trans (List.filter_sublist rest)), ?_⟩
      rw [dedupScan_cons, heq, List.map_cons]

theorem dedupScan_pairwise (tol : ℚ) :
    ∀ (n : ℕ) (l : List Field), l.length ≤ n →
      (dedupScan tol l).Pairwise fun a b => fields_match a b tol = false := by
  intro n
  induction n with
  | zero =>
    intro l hl
    have hnil : l = [] := List.length_eq_zero.mp (Nat.le_zero.mp hl)
    subst hnil
    rw [dedupScan_nil]
    exact List.Pairwise.nil
  | succ n ih =>
    intro l hl
    cases l with
    | nil =>
      rw [dedupScan_nil]
      exact List.Pairwise.nil
    | cons f rest =>
      have hlen : (rest.filter fun g => !(fields_match f g tol)).length ≤ n := by
        have := List.length_filter_le (fun g => !(fields_match f g tol)) rest
        simp only [List.length_cons] at hl
        omega
      rw [dedupScan_cons, List.pairwise_cons]
      constructor
      · intro b hb
        obtain ⟨sub, hsub, heq⟩ := dedupScan_strip_sublist tol n _ hlen
        rw [heq] at hb
        obtain ⟨g, hg, rfl⟩ := List.mem_map.mp hb
        have hgf := hsub.subset hg
        have hmatch := (List.mem_filter.mp hgf).2
        have hfalse : fields_match f g tol = false := by
          cases hx : fields_match f g tol
          · rfl
          · rw [hx] at hmatch
            simp at hmatch
        rw [fields_match_stripQuad_left, fields_match_stripQuad_right]
        exact hfalse
      · exact ih _ hlen

theorem dedupScan_eq_self (tol : ℚ) :
    ∀ l : List Field, (l.Pairwise fun a b => fields_match a b tol = false) →
      (∀ f ∈ l, f.quadrant = none) → dedupScan tol l = l := by
  intro l
  induction l with
  | nil => intro _ _; rw [dedupScan_nil]
  | cons f rest ih =>
    intro hp hq
    rw [List.pairwise_cons] at hp
    obtain ⟨hf, hrest⟩ := hp
    have hfil : (rest.filter fun g => !(fields_match f g tol)) = rest := by
      apply List.filter_eq_self.mpr
      intro g hg
      rw [hf g hg]
      rfl
    rw [dedupScan_cons, hfil, ih hrest fun g hg => hq g (List.mem_cons_of_mem f hg),
      stripQuad_eq_self f (hq f (List.mem_cons_self f rest))]

theorem dedupScan_covers (tol : ℚ) :
    ∀ (n : ℕ) (l : List Field), l.length ≤ n → ∀ g ∈ l,
      stripQuad g ∈ dedupScan tol l ∨
        ∃ f ∈ dedupScan tol l, fields_match f g tol = true := by
  intro n
  induction n with
  | zero =>
    intro l hl
    have hnil : l = [] := List.length_eq_zero.mp (Nat.le_zero.mp hl)
    subst hnil
    intro g hg
    simp at hg
  | succ n ih =>
    intro l hl
    cases l with
    | nil => intro g hg; simp at hg
    | cons f rest =>
      have hlen : (rest.filter fun g => !(fields_match f g tol)).length ≤ n := by
        have := List.length_filter_le (fun g => !(fields_match f g tol)) rest
        simp only [List.length_cons] at hl
        omega
      intro g hg
      rw [dedupScan_cons]
      rcases List.mem_cons.mp hg with rfl | hgrest
      · left
        exact List.mem_cons_self _ _
      · by_cases hm : fields_match f g tol = true
        · right
          refine ⟨stripQuad f, List.mem_cons_self _ _, ?_⟩
          rw [fields_match_stripQuad_left]
          exact hm
        · have hgfil : g ∈ rest.filter fun x => !(fields_match f x tol) :=
            List.mem_filter.mpr ⟨hgrest, by simp [hm]⟩
          rcases ih _ hlen g hgfil with h | ⟨f2, hf2, hm2⟩
          · left
            exact List.mem_cons_of_mem _ h
          · right
            exact ⟨f2, List.mem_cons_of_mem _ hf2, hm2⟩

/-- C6: applying identity-based deduplication a second time to its own
output changes nothing: the survivors of a pass are pairwise
non-matching, already stripped of the region tag, and a second pass
(whose quadrant sort is then the identity) keeps them all. -/
theorem C6_dedup_idempotent :
    ∀ (fields : List Field) (tolerance : ℚ),
      deduplicate_boundary_fields (deduplicate_boundary_fields fields tolerance) tolerance =
        deduplicate_boundary_fields fields tolerance := by
  intro fields tol
  have hquad : ∀ f ∈ deduplicate_boundary_fields fields tol, f.quadrant = none := by
    obtain ⟨sub, hsub, heq⟩ :=
      dedupScan_strip_sublist tol (sortQuad fields).length (sortQuad fields) le_rfl
    rw [deduplicate_boundary_fields, heq]
    intro f hf
    obtain ⟨g, hg, rfl⟩ := List.mem_map.mp hf
    rfl
  have hpair : (deduplicate_boundary_fields fields tol).Pairwise
      fun a b => fields_match a b tol = false :=
    dedupScan_pairwise tol (sortQuad fields).length (sortQuad fields) le_rfl
  have hsort : sortQuad (deduplicate_boundary_fields fields tol) =
      deduplicate_boundary_fields fields tol :=
    sortQuad_eq_self_of_const _ fun f hf => by simp [quadKey, hquad f hf]
  show dedupScan tol (sortQuad (deduplicate_boundary_fields fields tol)) =
    deduplicate_boundary_fields fields tol
  rw [hsort]
  exact dedupScan_eq_self tol _ hpair hquad

/-- C7: `deduplicate_by_position` returns an order-preserving subset of
its input; `deduplicate_boundary_fields` returns an order-preserving
subset of the quadrant-sorted scan sequence, each survivor stripped of
the region tag; the scan sequence is a permutation of the input, sorted
ascending by region tag and stable (each tag class keeps its input
order); and every scanned field either survives or matches a surviving
field, so among duplicates the earliest-region copy wins. -/
theorem C7_dedup_subset_order :
    ∀ (fields : List Field) (tolerance : ℚ),
      List.Sublist (deduplicate_by_position fields tolerance) fields ∧
      (∃ sub, List.Sublist sub (sortQuad fields) ∧
        deduplicate_boundary_fields fields tolerance = sub.map stripQuad) ∧
      List.Perm (sortQuad fields) fields ∧
      (sortQuad fields).Pairwise (fun a b => quadKey a ≤ quadKey b) ∧
      (∀ v : ℚ, ((sortQuad fields).filter fun g => quadKey g == v) =
        fields.filter fun g => quadKey g == v) ∧
      ∀ g ∈ sortQuad fields,
        stripQuad g ∈ deduplicate_boundary_fields fields tolerance ∨
          ∃ f ∈ deduplicate_boundary_fields fields tolerance,
            fields_match f g tolerance = true := by
  intro fields tol
  refine ⟨dedupPosAux_sublist tol fields [],
    dedupScan_strip_sublist tol (sortQuad fields).length (sortQuad fields) le_rfl,
    sortQuad_perm fields, sortQuad_sorted fields, fun v => sortQuad_stable fields v,
    fun g hg => ?_⟩
  exact dedupScan_covers tol (sortQuad fields).length (sortQuad fields) le_rfl g hg

/-- C10: under position-based deduplication a field whose resolved
coordinates dict is empty is always kept (the survivors' geometry-less
sublist equals the input's), and an empty coordinates dict never matches
anything, so geometry-less fields can neither be dropped nor cause a
drop, and two geometry-less fields are never merged. -/
theorem C10_position_dedup_geometryless :
    ∀ (fields : List Field) (tolerance : ℚ),
      ((deduplicate_by_position fields tolerance).filter fun f => (posCoords f).isEmptyD) =
        (fields.filter fun f => (posCoords f).isEmptyD) ∧
      ∀ c1 c2 : CoordDict, c1.isEmptyD = true ∨ c2.isEmptyD = true →
        coordinates_match c1 c2 tolerance = false :=
  fun fields tol =>
    ⟨dedupPosAux_filter_empty tol fields [],
     fun c1 c2 h => coordinates_match_false_of_empty c1 c2 tol h⟩

/-- Witness for C10: the empty dict matches nothing, applied at a
non-empty partner dict, plus the kept-sublist equation at two
geometry-less fields. -/
theorem C10_position_dedup_geometryless_witness :
    coordinates_match emptyD ⟨some 1, some 1, some 1, some 1⟩ 2 = false ∧
    ((deduplicate_by_position
        [⟨some "a", some "text", none, none, none, none, none, none, none⟩,
         ⟨some "a", some "text", none, none, none, none, none, none, none⟩] 2).filter
      fun f => (posCoords f).isEmptyD) =
      ([⟨some "a", some "text", none, none, none, none, none, none, none⟩,
        ⟨some "a", some "text", none, none, none, none, none, none, none⟩].filter
        fun f => (posCoords f).isEmptyD) :=
  ⟨(C10_position_dedup_geometryless [] 2).2 emptyD ⟨some 1, some 1, some 1, some 1⟩
      (Or.inl (by decide)),
   (C10_position_dedup_geometryless
      [⟨some "a", some "text", none, none, none, none, none, none, none⟩,
       ⟨some "a", some "text", none, none, none, none, none, none, none⟩] 2).1⟩

/-- Witness for C7: the cover clause applied to the second of two
identical region-tagged fields. -/
theorem C7_dedup_subset_order_witness :
    stripQuad ⟨some "Name", some "text", none, some ⟨some 10, some 10, some 30, some 3⟩,
        none, none, none, none, some 2⟩ ∈
      deduplicate_boundary_fields
        [⟨some "Name", some "text", none, some ⟨some 10, some 10, some 30, some 3⟩,
          none, none, none, none, some 1⟩,
         ⟨some "Name", some "text", none, some ⟨some 10, some 10, some 30, some 3⟩,
          none, none, none, none, some 2⟩] 3 ∨
    ∃ f ∈ deduplicate_boundary_fields
        [⟨some "Name", some "text", none, some ⟨some 10, some 10, some 30, some 3⟩,
          none, none, none, none, some 1⟩,
         ⟨some "Name", some "text", none, some ⟨some 10, some 10, some 30, some 3⟩,
          none, none, none, none, some 2⟩] 3,
      fields_match f ⟨some "Name", some "text", none, some ⟨some 10, some 10, some 30, some 3⟩,
        none, none, none, none, some 2⟩ 3 = true := by
  apply (C7_dedup_subset_order
    [⟨some "Name", some "text", none, some ⟨some 10, some 10, some 30, some 3⟩,
      none, none, none, none, some 1⟩,
     ⟨some "Name", some "text", none, some ⟨some 10, some 10, some 30, some 3⟩,
      none, none, none, none, some 2⟩] 3).2.2.2.2.2
  have hperm := sortQuad_perm
    [⟨some "Name", some "text", none, some ⟨some 10, some 10, some 30, some 3⟩,
      none, none, none, none, some 1⟩,
     ⟨some "Name", some "text", none, some ⟨some 10, some 10, some 30, some 3⟩,
      none, none, none, none, some 2⟩]
  apply hperm.mem_iff.mpr
  simp

/-! Claims about the geometry resolution inside `match_fields`. -/

/-- C9 counterexample: a `linkedText` field carrying only a `segments`
list resolves to the degenerate rectangle inside `match_fields`, not to
the minimal enclosing box of its segments — the scorer never reads the
`segments` key (it only handles `tableConfig` and `dateSegments`). -/
theorem C9_linkedtext_segments_counterexample :
    asRect (truthCoords ⟨some "x", some "linkedText", none, none, none, none, none,
        some [⟨some 10, some 10, some 5, some 5⟩], none⟩) = (0, 0, 0, 0) ∧
    asRect (bounding_box_from_segments [⟨some 10, some 10, some 5, some 5⟩]) =
      (10, 10, 5, 5) ∧
    ((0, 0, 0, 0) : ℚ × ℚ × ℚ × ℚ) ≠ (10, 10, 5, 5) := by
  refine ⟨rfl, ?_, ?_⟩
  · norm_num [bounding_box_from_segments, listMin, listMax, asRect]
  · intro h
    have h1 := congrArg (fun q => q.1) h
    norm_num at h1

/-- C9 (amended): the scorer ignores the `segments` key entirely; a field
with absent coordinates and no `tableConfig` or `dateSegments` key (for
example a `linkedText` field with only `segments`) resolves to the empty
dict, i.e. the degenerate rectangle, on the ground-truth side of
`match_fields`. -/
theorem C9_linkedtext_segments_amended :
    ∀ f : Field, f.coordinates = none → f.tableConfig = none → f.dateSegments = none →
      truthCoords f = emptyD ∧ asRect (truthCoords f) = (0, 0, 0, 0) := by
  intro f h1 h2 h3
  have h : truthCoords f = emptyD := by
    simp [truthCoords, h1, h2, h3]
  exact ⟨h, by rw [h]; rfl⟩

/-- Witness for C9 (amended) at the `linkedText` field of the
counterexample. -/
theorem C9_linkedtext_segments_amended_witness :
    truthCoords ⟨some "x", some "linkedText", none, none, none, none, none,
        some [⟨some 10, some 10, some 5, some 5⟩], none⟩ = emptyD ∧
    asRect (truthCoords ⟨some "x", some "linkedText", none, none, none, none, none,
        some [⟨some 10, some 10, some 5, some 5⟩], none⟩) = (0, 0, 0, 0) :=
  C9_linkedtext_segments_amended _ rfl rfl rfl

/-- C1 counterexample: on the ground-truth side a present `tableConfig`
key overrides present non-empty own coordinates (the spec contract says
own coordinates win), and on the predicted side nested table geometry is
never consulted (the spec contract says it is). -/
theorem C1_geometry_resolver_counterexample :
    asRect (truthCoords ⟨some "x", some "table", none,
        some ⟨some 0, some 0, some 10, some 10⟩, none,
        some ⟨some ⟨some 50, some 50, some 10, some 10⟩⟩, none, none, none⟩) ≠
      asRect (resolveGeometrySpec ⟨some "x", some "table", none,
        some ⟨some 0, some 0, some 10, some 10⟩, none,
        some ⟨some ⟨some 50, some 50, some 10, some 10⟩⟩, none, none, none⟩) ∧
    asRect (predCoords ⟨some "x", some "table", none, none, none,
        some ⟨some ⟨some 50, some 50, some 10, some 10⟩⟩, none, none, none⟩) ≠
      asRect (resolveGeometrySpec ⟨some "x", some "table", none, none, none,
        some ⟨some ⟨some 50, some 50, some 10, some 10⟩⟩, none, none, none⟩) := by
  constructor
  · intro h
    have h1 := congrArg (fun q => q.1) h
    norm_num [truthCoords, resolveGeometrySpec, asRect, CoordDict.isEmptyD,
      Option.isNone] at h1
  · intro h
    have h1 := congrArg (fun q => q.1) h
    norm_num [predCoords, resolveGeometrySpec, specResolveRest, specResolveDate,
      asRect, emptyD, CoordDict.isEmptyD] at h1

/-- C1 (amended): inside `match_fields` the predicted side resolves to
the field's `coordinates` entry when present (even if empty), else its
`box` entry, else the empty dict, never consulting nested geometry; the
ground-truth side gives a present `tableConfig` key absolute precedence
(its `coordinates`, or the empty dict, regardless of field type), else
uses the field's own coordinates when present and non-empty, else the
`dateSegments` bounding box when that key is present, else the empty
dict. -/
theorem C1_geometry_resolver_amended :
    ∀ f : Field,
      truthCoords f = truthResolveAmended f ∧ predCoords f = predResolveAmended f := by
  intro f
  constructor
  · cases htc : f.tableConfig with
    | some tc =>
      cases hcc : tc.coordinates with
      | some c => simp [truthCoords, truthResolveAmended, htc, hcc]
      | none => simp [truthCoords, truthResolveAmended, htc, hcc]
    | none =>
      cases hc : f.coordinates with
      | some c =>
        cases hds : f.dateSegments with
        | some segs =>
          by_cases hce : c.isEmptyD = true
          · have hceq : c = emptyD := by
              cases c with
              | mk l t w h =>
                simp only [CoordDict.isEmptyD, Bool.and_eq_true, Option.isNone_iff_eq_none] at hce
                obtain ⟨⟨⟨e1, e2⟩, e3⟩, e4⟩ := hce
                simp [emptyD, e1, e2, e3, e4]
            simp [truthCoords, truthResolveAmended, truthResolveAmendedFallback,
              htc, hc, hds, hce]
          · simp [truthCoords, truthResolveAmended, htc, hc, hds, hce]
        | none =>
          by_cases hce : c.isEmptyD = true
          · have hceq : c = emptyD := by
              cases c with
              | mk l t w h =>
                simp only [CoordDict.isEmptyD, Bool.and_eq_true, Option.isNone_iff_eq_none] at hce
                obtain ⟨⟨⟨e1, e2⟩, e3⟩, e4⟩ := hce
                simp [emptyD, e1, e2, e3, e4]
            simp [truthCoords, truthResolveAmended, truthResolveAmendedFallback,
              htc, hc, hds, hce, hceq]
          · simp [truthCoords, truthResolveAmended, truthResolveAmendedFallback,
              htc, hc, hds, hce]
      | none =>
        cases hds : f.dateSegments with
        | some segs =>
          simp [truthCoords, truthResolveAmended, truthResolveAmendedFallback,
            htc, hc, hds, emptyD, CoordDict.isEmptyD]
        | none =>
          simp [truthCoords, truthResolveAmended, truthResolveAmendedFallback,
            htc, hc, hds]
  · cases hc : f.coordinates with
    | some c => simp [predCoords, predResolveAmended, hc]
    | none =>
      cases hb : f.box with
      | some b => simp [predCoords, predResolveAmended, hc, hb]
      | none => simp [predCoords, predResolveAmended, hc, hb]

/-! Error behaviour of `score_extraction`. -/

/-- C8: `score_extraction` fails exactly when the caller supplies a
weights mapping missing one of the five required keys; with no mapping
the defaults are complete, and with a complete mapping every input —
empty sets or malformed geometry included — returns a result (all the
rate computations are guarded, so no division by zero arises, and a
partially-specified mapping is never silently completed from defaults). -/
theorem C8_weights_error_iff :
    ∀ (predicted ground_truth : List Field) (weights : Option Weights),
      ((∃ e, score_extraction predicted ground_truth weights = Except.error e) ↔
        (∃ w, weights = some w ∧
          (w.detection_rate = none ∨ w.precision_rate = none ∨ w.avg_iou = none ∨
           w.type_accuracy = none ∨ w.label_accuracy = none))) ∧
      ∃ sc, score_extraction predicted ground_truth none = Except.ok sc := by
  intro p g w
  constructor
  · cases w with
    | none =>
      constructor
      · rintro ⟨e, he⟩
        simp [score_extraction, defaultWeights, getWeight] at he
      · rintro ⟨wt, hwt, _⟩
        exact absurd hwt (by simp)
    | some wt =>
      obtain ⟨d, p2, i, t, l⟩ := wt
      cases d <;> cases p2 <;> cases i <;> cases t <;> cases l <;>
        simp [score_extraction, getWeight]
  · exact ⟨_, rfl⟩

/-! Structural lemmas about the assignment solver. -/

theorem injections_mem :
    ∀ (k : ℕ) (pool : List ℕ), pool.Nodup → ∀ c ∈ injections k pool,
      c.length = k ∧ c.Nodup ∧ ∀ x ∈ c, x ∈ pool := by
  intro k
  induction k with
  | zero =>
    intro pool _ c hc
    simp only [injections, List.mem_singleton] at hc
    subst hc
    simp
  | succ k ih =>
    intro pool hpool c hc
    simp only [injections] at hc
    rw [List.mem_bind] at hc
    obtain ⟨p, hp, hcp⟩ := hc
    rw [List.mem_map] at hcp
    obtain ⟨rest, hrest, rfl⟩ := hcp
    obtain ⟨hlen, hnd, hsub⟩ := ih (pool.erase p) (hpool.erase p) rest hrest
    refine ⟨by simp [hlen], ?_, ?_⟩
    · rw [List.nodup_cons]
      refine ⟨fun hmem => ?_, hnd⟩
      have hme := hsub p hmem
      rw [hpool.mem_erase_iff] at hme
      exact hme.1 rfl
    · intro x hx
      rcases List.mem_cons.mp hx with rfl | hx2
      · exact hp
      · exact List.erase_subset p pool (hsub x hx2)

theorem candidateAssignments_mem_props :
    ∀ {n m : ℕ} {a : List (ℕ × ℕ)}, a ∈ candidateAssignments n m →
      (a.map Prod.fst).Nodup ∧ (a.map Prod.snd).Nodup ∧
        (∀ p ∈ a, p.1 < n ∧ p.2 < m) ∧ a.length = min n m := by
  intro n m a ha
  rw [candidateAssignments] at ha
  split_ifs at ha with h
  · rw [List.mem_map] at ha
    obtain ⟨cols, hcols, rfl⟩ := ha
    obtain ⟨hlen, hnd, hsub⟩ := injections_mem n (List.range m) (List.nodup_range m) cols hcols
    have hlr : (List.range n).length = n := List.length_range n
    have hfst : ((List.range n).zip cols).map Prod.fst = List.range n :=
      List.map_fst_zip _ _ (by rw [hlr, hlen])
    have hsnd : ((List.range n).zip cols).map Prod.snd = cols :=
      List.map_snd_zip _ _ (by rw [hlr, hlen])
    refine ⟨?_, ?_, ?_, ?_⟩
    · rw [hfst]
      exact List.nodup_range n
    · rw [hsnd]
      exact hnd
    · intro p hp
      obtain ⟨i, j⟩ := p
      obtain ⟨h1, h2⟩ := List.of_mem_zip hp
      exact ⟨List.mem_range.mp h1, List.mem_range.mp (hsub _ h2)⟩
    · rw [List.length_zip, hlr, hlen]
      omega
  · rw [List.mem_map] at ha
    obtain ⟨rows, hrows, rfl⟩ := ha
    obtain ⟨hlen, hnd, hsub⟩ := injections_mem m (List.range n) (List.nodup_range n) rows hrows
    have hlr : (List.range m).length = m := List.length_range m
    have hfst : (rows.zip (List.range m)).map Prod.fst = rows :=
      List.map_fst_zip _ _ (by rw [hlr, hlen])
    have hsnd : (rows.zip (List.range m)).map Prod.snd = List.range m :=
      List.map_snd_zip _ _ (by rw [hlr, hlen])
    refine ⟨?_, ?_, ?_, ?_⟩
    · rw [hfst]
      exact hnd
    · rw [hsnd]
      exact List.nodup_range m
    · intro p hp
      obtain ⟨i, j⟩ := p
      obtain ⟨h1, h2⟩ := List.of_mem_zip hp
      exact ⟨List.mem_range.mp (hsub _ h1), List.mem_range.mp h2⟩
    · rw [List.length_zip, hlr, hlen]
      omega

theorem foldl_best_mem (val : List (ℕ × ℕ) → ℚ) :
    ∀ (cs : List (List (ℕ × ℕ))) (c : List (ℕ × ℕ)),
      (cs.foldl (fun best a => if val best < val a then a else best) c) = c ∨
        (cs.foldl (fun best a => if val best < val a then a else best) c) ∈ cs := by
  intro cs
  induction cs with
  | nil => intro c; left; rfl
  | cons a cs ih =>
    intro c
    rw [List.foldl_cons]
    rcases ih (if val c < val a then a else c) with h | h
    · rw [h]
      split_ifs with hv
      · right
        exact List.mem_cons_self a cs
      · left
        rfl
    · right
      exact List.mem_cons_of_mem a h

theorem linear_sum_assignment_mem_or_nil (score : ℕ → ℕ → ℚ) (n m : ℕ) :
    linear_sum_assignment score n m ∈ candidateAssignments n m ∨
      linear_sum_assignment score n m = [] := by
  rw [linear_sum_assignment]
  cases hc : candidateAssignments n m with
  | nil => right; rfl
  | cons c cs =>
    left
    show (cs.foldl (fun best a =>
      if totalScore score best < totalScore score a then a else best) c) ∈ c :: cs
    rcases foldl_best_mem (totalScore score) cs c with h | h
    · rw [h]
      exact List.mem_cons_self c cs
    · exact List.mem_cons_of_mem c h

theorem linear_sum_assignment_props (score : ℕ → ℕ → ℚ) (n m : ℕ) :
    ((linear_sum_assignment score n m).map Prod.fst).Nodup ∧
    ((linear_sum_assignment score n m).map Prod.snd).Nodup ∧
    ∀ p ∈ linear_sum_assignment score n m, p.1 < n ∧ p.2 < m := by
  rcases linear_sum_assignment_mem_or_nil score n m with h | h
  · obtain ⟨h1, h2, h3, _⟩ := candidateAssignments_mem_props h
    exact ⟨h1, h2, h3⟩
  · rw [h]
    exact ⟨List.Pairwise.nil, List.Pairwise.nil, by intro p hp; simp at hp⟩

theorem retainedPairs_props (predicted ground_truth : List Field) (t : ℚ) :
    ((retainedPairs predicted ground_truth t).map Prod.fst).Nodup ∧
    ((retainedPairs predicted ground_truth t).map Prod.snd).Nodup ∧
    ∀ p ∈ retainedPairs predicted ground_truth t,
      p.1 < predicted.length ∧ p.2 < ground_truth.length := by
  obtain ⟨h1, h2, h3⟩ := linear_sum_assignment_props
    (scoreAt predicted ground_truth t) predicted.length ground_truth.length
  have hsub : List.Sublist (retainedPairs predicted ground_truth t)
      (linear_sum_assignment (scoreAt predicted ground_truth t)
        predicted.length ground_truth.length) := List.filter_sublist _
  refine ⟨(hsub.map Prod.fst).nodup h1, (hsub.map Prod.snd).nodup h2, ?_⟩
  intro p hp
  exact h3 p (hsub.subset hp)

theorem list_range_toFinset (m : ℕ) : (List.range m).toFinset = Finset.range m := by
  ext x
  simp

theorem length_filter_not_contains (m : ℕ) (mts : List ℕ) (hnd : mts.Nodup)
    (hb : ∀ x ∈ mts, x < m) :
    ((List.range m).filter fun j => !(mts.contains j)).length = m - mts.length := by
  have hnodupf : ((List.range m).filter fun j => !(mts.contains j)).Nodup :=
    (List.nodup_range m).filter _
  rw [← List.toFinset_card_of_nodup hnodupf, List.toFinset_filter, list_range_toFinset]
  have hsub : mts.toFinset ⊆ Finset.range m := by
    intro x hx
    rw [List.mem_toFinset] at hx
    exact Finset.mem_range.mpr (hb x hx)
  have hset : Finset.filter (fun x => (!(mts.contains x)) = true) (Finset.range m) =
      Finset.range m \ mts.toFinset := by
    ext x
    simp
  rw [hset, Finset.card_sdiff hsub, Finset.card_range, List.toFinset_card_of_nodup hnd]

theorem nodup_bounded_length_le (m : ℕ) (mts : List ℕ) (hnd : mts.Nodup)
    (hb : ∀ x ∈ mts, x < m) : mts.length ≤ m := by
  have hsub : mts.toFinset ⊆ Finset.range m := by
    intro x hx
    rw [List.mem_toFinset] at hx
    exact Finset.mem_range.mpr (hb x hx)
  have := Finset.card_le_card hsub
  rw [List.toFinset_card_of_nodup hnd, Finset.card_range] at this
  exact this

/-- C3: the matching is injective — no predicted index and no
ground-truth index appears in more than one retained pair — and it
partitions both sides: `|matched| + |missed| = |ground_truth|` and
`|matched| + |extra| = |predicted|`. -/
theorem C3_matching_injective_partition :
    ∀ (predicted ground_truth : List Field) (iou_threshold : ℚ),
      ((retainedPairs predicted ground_truth iou_threshold).map Prod.fst).Nodup ∧
      ((retainedPairs predicted ground_truth iou_threshold).map Prod.snd).Nodup ∧
      (match_fields predicted ground_truth iou_threshold).1.length +
          (match_fields predicted ground_truth iou_threshold).2.1.length =
        ground_truth.length ∧
      (match_fields predicted ground_truth iou_threshold).1.length +
          (match_fields predicted ground_truth iou_threshold).2.2.length =
        predicted.length := by
  intro p g t
  obtain ⟨h1, h2, h3⟩ := retainedPairs_props p g t
  refine ⟨h1, h2, ?_⟩
  by_cases hguard : p = [] ∨ g = []
  · rw [match_fields, if_pos hguard]
    simp
  · rw [match_fields, if_neg hguard]
    simp only [List.length_map]
    set pairs := retainedPairs p g t with hpairs
    have hmps : (pairs.map Prod.fst).Nodup := h1
    have hmts : (pairs.map Prod.snd).Nodup := h2
    have hbp : ∀ x ∈ pairs.map Prod.fst, x < p.length := by
      intro x hx
      obtain ⟨q, hq, rfl⟩ := List.mem_map.mp hx
      exact (h3 q hq).1
    have hbt : ∀ x ∈ pairs.map Prod.snd, x < g.length := by
      intro x hx
      obtain ⟨q, hq, rfl⟩ := List.mem_map.mp hx
      exact (h3 q hq).2
    have hmiss := length_filter_not_contains g.length (pairs.map Prod.snd) hmts hbt
    have hextra := length_filter_not_contains p.length (pairs.map Prod.fst) hmps hbp
    have hlep : (pairs.map Prod.fst).length ≤ p.length :=
      nodup_bounded_length_le _ _ hmps hbp
    have hleg : (pairs.map Prod.snd).length ≤ g.length :=
      nodup_bounded_length_le _ _ hmts hbt
    rw [List.length_map] at hlep hleg
    constructor
    · rw [hmiss]
      rw [List.length_map]
      omega
    · rw [hextra]
      rw [List.length_map]
      omega

/-! Lemmas for the identity-scoring claim. -/

theorem matchScore_nonneg (f g : Field) (t : ℚ) : 0 ≤ matchScore f g t := by
  simp only [matchScore]
  split_ifs with h
  · exact le_refl 0
  · have h1 := calculate_iou_nonneg (predCoords f) (truthCoords g)
    have h2 := label_similarity_nonneg (fieldLabel f) (fieldLabel g)
    nlinarith

theorem matchScore_le_one (f g : Field) (t : ℚ) : matchScore f g t ≤ 1 := by
  simp only [matchScore]
  split_ifs with h
  · exact zero_le_one
  · have h1 := calculate_iou_le_one (predCoords f) (truthCoords g)
    have h2 := label_similarity_le_one (fieldLabel f) (fieldLabel g)
    have h3 := calculate_iou_nonneg (predCoords f) (truthCoords g)
    have h4 := label_similarity_nonneg (fieldLabel f) (fieldLabel g)
    nlinarith

theorem coords_not_empty_of_pos_width (c : CoordDict) (hw : 0 < c.width.getD 0) :
    c.isEmptyD = false := by
  cases hcw : c.width with
  | none => rw [hcw] at hw; simp at hw
  | some w =>
    simp [CoordDict.isEmptyD, hcw]

theorem truthCoords_of_plain (f : Field) (c : CoordDict) (htc : f.tableConfig = none)
    (hc : f.coordinates = some c) (hne : c.isEmptyD = false) : truthCoords f = c := by
  simp only [truthCoords, htc, hc, Option.getD]
  cases f.dateSegments with
  | none => rfl
  | some segs => simp [hne]

theorem matchScore_diag (f : Field)
    (hl : fieldLabel f ≠ "") (htc : f.tableConfig = none)
    (hgeo : ∃ c, f.coordinates = some c ∧ 0 < c.width.getD 0 ∧ 0 < c.height.getD 0) :
    matchScore f f (1/10) = 1 := by
  obtain ⟨c, hc, hw, hh⟩ := hgeo
  have hne : c.isEmptyD = false := coords_not_empty_of_pos_width c hw
  have hpc : predCoords f = c := by simp [predCoords, hc]
  have htr : truthCoords f = c := truthCoords_of_plain f c htc hc hne
  simp only [matchScore, hpc, htr]
  rw [calculate_iou_self c hw hh, label_similarity_self (fieldLabel f) hl]
  norm_num

theorem mem_zip_self {α : Type} : ∀ (l : List α) (p : α × α), p ∈ l.zip l →
    p.1 = p.2 ∧ p.1 ∈ l := by
  intro l
  induction l with
  | nil => intro p hp; simp at hp
  | cons a l ih =>
    intro p hp
    rw [List.zip_cons_cons, List.mem_cons] at hp
    rcases hp with rfl | hp
    · exact ⟨rfl, List.mem_cons_self a l⟩
    · obtain ⟨h1, h2⟩ := ih p hp
      exact ⟨h1, List.mem_cons_of_mem a h2⟩

theorem zip_self_map {α β : Type} (f : α → α → β) :
    ∀ l : List α, ((l.zip l).map fun p => f p.1 p.2) = l.map fun i => f i i := by
  intro l
  induction l with
  | nil => rfl
  | cons a l ih => simp [List.zip_cons_cons, ih]

theorem getD_mem {α : Type} (l : List α) (i : ℕ) (d : α) (h : i < l.length) :
    l.getD i d ∈ l := by
  rw [List.getD_eq_getElem l d h]
  exact List.getElem_mem h

theorem injections_head (k : ℕ) :
    ∀ pool : List ℕ, k ≤ pool.length → (injections k pool).head? = some (pool.take k) := by
  induction k with
  | zero => intro pool _; simp [injections]
  | succ k ih =>
    intro pool hk
    cases pool with
    | nil => simp at hk
    | cons p ps =>
      simp only [injections, List.cons_bind, List.erase_cons_head]
      have hh := ih ps (by simpa using Nat.le_of_succ_le_succ hk)
      cases hinj : injections k ps with
      | nil => rw [hinj] at hh; simp at hh
      | cons r rs =>
        rw [hinj] at hh
        simp only [List.head?_cons, Option.some_inj] at hh
        simp [hh]

theorem foldl_best_stays (val : List (ℕ × ℕ) → ℚ) :
    ∀ (cs : List (List (ℕ × ℕ))) (c : List (ℕ × ℕ)),
      (∀ a ∈ cs, ¬ val c < val a) →
      cs.foldl (fun best a => if val best < val a then a else best) c = c := by
  intro cs
  induction cs with
  | nil => intro c _; rfl
  | cons a cs ih =>
    intro c h
    rw [List.foldl_cons, if_neg (h a (List.mem_cons_self a cs))]
    exact ih c fun b hb => h b (List.mem_cons_of_mem a hb)

theorem totalScore_le_length (score : ℕ → ℕ → ℚ) (a : List (ℕ × ℕ))
    (h : ∀ p ∈ a, score p.1 p.2 ≤ 1) : totalScore score a ≤ a.length := by
  have hb : ∀ x ∈ a.map fun p => score p.1 p.2, x ≤ (1:ℚ) := by
    intro x hx
    obtain ⟨p, hp, rfl⟩ := List.mem_map.mp hx
    exact h p hp
  have := List.sum_le_card_nsmul (a.map fun p => score p.1 p.2) 1 hb
  rw [List.length_map] at this
  simpa [totalScore] using this

theorem totalScore_diag (score : ℕ → ℕ → ℚ) (n : ℕ)
    (h : ∀ i < n, score i i = 1) :
    totalScore score ((List.range n).zip (List.range n)) = n := by
  rw [totalScore, zip_self_map]
  have hcongr : ((List.range n).map fun i => score i i) =
      (List.range n).map fun _ => (1:ℚ) := by
    apply List.map_congr_left
    intro i hi
    exact h i (List.mem_range.mp hi)
  rw [hcongr, List.map_const', List.sum_replicate, List.length_range]
  simp

theorem linear_sum_assignment_diag (score : ℕ → ℕ → ℚ) (n : ℕ)
    (hle : ∀ p : ℕ × ℕ, p.1 < n → p.2 < n → score p.1 p.2 ≤ 1)
    (hdiag : ∀ i < n, score i i = 1) :
    linear_sum_assignment score n n = (List.range n).zip (List.range n) := by
  have hhead : (candidateAssignments n n).head? =
      some ((List.range n).zip (List.range n)) := by
    rw [candidateAssignments, if_pos (le_refl n)]
    rw [List.head?_map, injections_head n (List.range n) (by rw [List.length_range])]
    simp [List.take_of_length_le (le_of_eq (List.length_range n))]
  cases hc : candidateAssignments n n with
  | nil => rw [hc] at hhead; simp at hhead
  | cons c cs =>
    rw [hc] at hhead
    simp only [List.head?_cons, Option.some_inj] at hhead
    subst hhead
    rw [linear_sum_assignment, hc]
    apply foldl_best_stays
    intro a ha
    have hmem : a ∈ candidateAssignments n n := by
      rw [hc]
      exact List.mem_cons_of_mem _ ha
    obtain ⟨_, _, hbound, hlen⟩ := candidateAssignments_mem_props hmem
    have h1 : totalScore score a ≤ a.length :=
      totalScore_le_length score a fun p hp => hle p (hbound p hp).1 (hbound p hp).2
    have h2 : totalScore score ((List.range n).zip (List.range n)) = n :=
      totalScore_diag score n hdiag
    rw [h2]
    rw [hlen] at h1
    simp only [min_self] at h1
    linarith

theorem types_compatible_self (t : String) : types_compatible t t = true := by
  simp [types_compatible]

theorem iou_diag_field (f : Field)
    (htc : f.tableConfig = none)
    (hgeo : ∃ c, f.coordinates = some c ∧ 0 < c.width.getD 0 ∧ 0 < c.height.getD 0) :
    calculate_iou (predCoords f) (truthCoords f) = 1 := by
  obtain ⟨c, hc, hw, hh⟩ := hgeo
  have hne : c.isEmptyD = false := coords_not_empty_of_pos_width c hw
  have hpc : predCoords f = c := by simp [predCoords, hc]
  have htr : truthCoords f = c := truthCoords_of_plain f c htc hc hne
  rw [hpc, htr]
  exact calculate_iou_self c hw hh

theorem retainedPairs_diag (S : List Field)
    (hcond : ∀ f ∈ S, fieldLabel f ≠ "" ∧ f.tableConfig = none ∧
      ∃ c, f.coordinates = some c ∧ 0 < c.width.getD 0 ∧ 0 < c.height.getD 0) :
    retainedPairs S S (1/10) = (List.range S.length).zip (List.range S.length) := by
  have hdiag : ∀ i < S.length, scoreAt S S (1/10) i i = 1 := by
    intro i hi
    have hmem := getD_mem S i default hi
    obtain ⟨hl, htc, hgeo⟩ := hcond _ hmem
    exact matchScore_diag _ hl htc hgeo
  have hle : ∀ p : ℕ × ℕ, p.1 < S.length → p.2 < S.length →
      scoreAt S S (1/10) p.1 p.2 ≤ 1 :=
    fun p _ _ => matchScore_le_one _ _ _
  rw [retainedPairs, linear_sum_assignment_diag _ _ hle hdiag]
  apply List.filter_eq_self.mpr
  intro p hp
  obtain ⟨i, j⟩ := p
  obtain ⟨heq, hmem⟩ := mem_zip_self _ _ hp
  simp only at heq
  subst heq
  have hi : i < S.length := List.mem_range.mp hmem
  show decide (0 < scoreAt S S (1/10) (i, i).1 (i, i).2) = true
  rw [decide_eq_true_eq]
  show 0 < scoreAt S S (1/10) i i
  rw [hdiag i hi]
  norm_num

theorem match_fields_diag (S : List Field) (hS : S ≠ [])
    (hcond : ∀ f ∈ S, fieldLabel f ≠ "" ∧ f.tableConfig = none ∧
      ∃ c, f.coordinates = some c ∧ 0 < c.width.getD 0 ∧ 0 < c.height.getD 0) :
    match_fields S S (1/10) =
      (((List.range S.length).zip (List.range S.length)).map
          fun p => mkFieldMatch (S.getD p.1 default) (S.getD p.2 default),
        [], []) := by
  have hguard : ¬ (S = [] ∨ S = []) := by simp [hS]
  rw [match_fields, if_neg hguard]
  rw [retainedPairs_diag S hcond]
  dsimp only
  have hsnd : ((List.range S.length).zip (List.range S.length)).map Prod.snd =
      List.range S.length := List.map_snd_zip _ _ (le_refl _)
  have hfst : ((List.range S.length).zip (List.range S.length)).map Prod.fst =
      List.range S.length := List.map_fst_zip _ _ (le_refl _)
  rw [hsnd, hfst]
  have hfil : ((List.range S.length).filter
      fun j => !((List.range S.length).contains j)) = [] := by
    apply List.filter_eq_nil.mpr
    intro j hj
    simp [hj]
  rw [hfil]
  simp

/-- C2 counterexample: a one-field set whose field carries no geometry at
all scores zero against itself (its IoU is forced to zero and gated out),
so the identity property fails without further assumptions. -/
theorem C2_identity_counterexample :
    (score_extraction [⟨some "x", some "text", none, none, none, none, none, none, none⟩]
        [⟨some "x", some "text", none, none, none, none, none, none, none⟩]
        none).toOption.map (fun sc => sc.detection_rate) = some 0 ∧ (0:ℚ) ≠ 100 := by
  constructor
  · have hmf : match_fields
        [(⟨some "x", some "text", none, none, none, none, none, none, none⟩ : Field)]
        [⟨some "x", some "text", none, none, none, none, none, none, none⟩] (1/10) =
        ([], [⟨some "x", some "text", none, none, none, none, none, none, none⟩],
          [⟨some "x", some "text", none, none, none, none, none, none, none⟩]) := by
      have hiou : calculate_iou ⟨none, none, none, none⟩ ⟨none, none, none, none⟩ = 0 := by
        norm_num [calculate_iou]
      have hms : matchScore ⟨some "x", some "text", none, none, none, none, none, none, none⟩
          ⟨some "x", some "text", none, none, none, none, none, none, none⟩ (1/10) = 0 := by
        simp only [matchScore, predCoords, truthCoords]
        norm_num [hiou, emptyD]
      rw [match_fields, if_neg (by simp)]
      have hretained : retainedPairs
          [(⟨some "x", some "text", none, none, none, none, none, none, none⟩ : Field)]
          [⟨some "x", some "text", none, none, none, none, none, none, none⟩] (1/10) = [] := by
        rw [retainedPairs]
        have hlsa : linear_sum_assignment
            (scoreAt [(⟨some "x", some "text", none, none, none, none, none, none, none⟩ : Field)]
              [⟨some "x", some "text", none, none, none, none, none, none, none⟩] (1/10))
            [(⟨some "x", some "text", none, none, none, none, none, none, none⟩ : Field)].length
            [(⟨some "x", some "text", none, none, none, none, none, none, none⟩ : Field)].length =
            [(0, 0)] := by
          have hlen : [(⟨some "x", some "text", none, none, none, none, none, none,
              none⟩ : Field)].length = 1 := rfl
          rw [hlen]
          have hcand : candidateAssignments 1 1 = [[(0, 0)]] := by
            simp [candidateAssignments, injections, List.range_succ]
          rw [linear_sum_assignment, hcand]
          rfl
        rw [hlsa]
        simp only [List.filter_cons, List.filter_nil]
        have hsc : scoreAt [(⟨some "x", some "text", none, none, none, none, none, none, none⟩ : Field)]
            [⟨some "x", some "text", none, none, none, none, none, none, none⟩] (1/10) 0 0 = 0 := by
          simp only [scoreAt, List.getD]
          simpa using hms
        have hdec : (decide (0 < scoreAt
            [(⟨some "x", some "text", none, none, none, none, none, none, none⟩ : Field)]
            [⟨some "x", some "text", none, none, none, none, none, none, none⟩] (1/10)
            ((0, 0) : ℕ × ℕ).1 ((0, 0) : ℕ × ℕ).2)) = false := by
          show decide (0 < scoreAt
            [(⟨some "x", some "text", none, none, none, none, none, none, none⟩ : Field)]
            [⟨some "x", some "text", none, none, none, none, none, none, none⟩] (1/10) 0 0) = false
          rw [hsc]
          simp
        rw [hdec]
        simp
      rw [hretained]
      simp [List.range_succ]
    simp only [score_extraction, defaultWeights, getWeight, hmf]
    norm_num
    exact ⟨_, rfl, rfl⟩
  · norm_num

/-- C2 (amended): for every non-empty field set whose fields each carry a
non-empty label, no `tableConfig` entry, and own coordinates with
positive width and height, scoring the set against itself with default
threshold and weights yields detection, precision, average IoU, type
accuracy, label accuracy and overall score all equal to 100. -/
theorem C2_identity_amended :
    ∀ S : List Field, S ≠ [] →
      (∀ f ∈ S, fieldLabel f ≠ "" ∧ f.tableConfig = none ∧
        ∃ c, f.coordinates = some c ∧ 0 < c.width.getD 0 ∧ 0 < c.height.getD 0) →
      ∃ sc, score_extraction S S none = Except.ok sc ∧
        sc.detection_rate = 100 ∧ sc.precision_rate = 100 ∧ sc.avg_iou = 100 ∧
        sc.type_accuracy = 100 ∧ sc.label_accuracy = 100 ∧ sc.overall_score = 100 := by
  intro S hS hcond
  have hmf := match_fields_diag S hS hcond
  have hn : 0 < S.length := List.length_pos.mpr hS
  have hnq : (S.length : ℚ) ≠ 0 := by
    exact_mod_cast Nat.pos_iff_ne_zero.mp hn
  have hzlen : ((List.range S.length).zip (List.range S.length)).length = S.length := by
    rw [List.length_zip, List.length_range]
    simp
  have hdiagmatch : ∀ p ∈ (List.range S.length).zip (List.range S.length),
      (mkFieldMatch (S.getD p.1 default) (S.getD p.2 default)).iou = 1 ∧
      (mkFieldMatch (S.getD p.1 default) (S.getD p.2 default)).label_similarity = 1 ∧
      (mkFieldMatch (S.getD p.1 default) (S.getD p.2 default)).type_correct = true := by
    intro p hp
    obtain ⟨i, j⟩ := p
    obtain ⟨heq, hmem⟩ := mem_zip_self _ _ hp
    simp only at heq
    subst heq
    have hi : i < S.length := List.mem_range.mp hmem
    obtain ⟨hl, htc, hgeo⟩ := hcond _ (getD_mem S i default hi)
    refine ⟨?_, ?_, ?_⟩
    · simp only [mkFieldMatch]
      exact iou_diag_field _ htc hgeo
    · simp only [mkFieldMatch]
      exact label_similarity_self _ hl
    · simp only [mkFieldMatch]
      exact types_compatible_self _
  set matched := ((List.range S.length).zip (List.range S.length)).map
    fun p => mkFieldMatch (S.getD p.1 default) (S.getD p.2 default) with hmatched
  have hmlen : matched.length = S.length := by
    rw [hmatched, List.length_map, hzlen]
  have hious : matched.map (fun m => m.iou) = List.replicate S.length (1:ℚ) := by
    rw [hmatched, List.map_map]
    have : ((List.range S.length).zip (List.range S.length)).map
        ((fun m => m.iou) ∘ fun p => mkFieldMatch (S.getD p.1 default) (S.getD p.2 default)) =
        ((List.range S.length).zip (List.range S.length)).map fun _ => (1:ℚ) := by
      apply List.map_congr_left
      intro p hp
      exact (hdiagmatch p hp).1
    rw [this, List.map_const', hzlen]
  have hsims : matched.map (fun m => m.label_similarity) = List.replicate S.length (1:ℚ) := by
    rw [hmatched, List.map_map]
    have : ((List.range S.length).zip (List.range S.length)).map
        ((fun m => m.label_similarity) ∘
          fun p => mkFieldMatch (S.getD p.1 default) (S.getD p.2 default)) =
        ((List.range S.length).zip (List.range S.length)).map fun _ => (1:ℚ) := by
      apply List.map_congr_left
      intro p hp
      exact (hdiagmatch p hp).2.1
    rw [this, List.map_const', hzlen]
  have hcount : matched.countP (fun m => m.type_correct) = matched.length := by
    apply List.countP_eq_length.mpr
    intro m hm
    rw [hmatched] at hm
    obtain ⟨p, hp, rfl⟩ := List.mem_map.mp hm
    exact (hdiagmatch p hp).2.2
  have hsum1 : (List.replicate S.length (1:ℚ)).sum = (S.length : ℚ) := by
    rw [List.sum_replicate]
    simp
  have hdiv : (S.length : ℚ) / (S.length : ℚ) * 100 = 100 := by
    rw [div_self hnq]
    norm_num
  have hreplne : (List.replicate S.length (1:ℚ)).isEmpty = false := by
    cases hSl : S.length with
    | zero => omega
    | succ k => simp [List.replicate_succ]
  have hrepllen : ((List.replicate S.length (1:ℚ)).length : ℚ) = (S.length : ℚ) := by
    rw [List.length_replicate]
  have hnotfalse : ¬ (false = true) := by simp
  refine ⟨_, rfl, ?_, ?_, ?_, ?_, ?_, ?_⟩
  · simp only [hmf]
    rw [hmlen, if_pos hn, hdiv]
  · simp only [hmf]
    rw [hmlen, if_pos hn, hdiv]
  · simp only [hmf]
    rw [hious, hreplne, if_neg hnotfalse, hsum1, hrepllen, hdiv]
  · simp only [hmf]
    rw [hcount, hmlen, if_pos hn, hdiv]
  · simp only [hmf]
    rw [hsims, hreplne, if_neg hnotfalse, hsum1, hrepllen, hdiv]
  · simp only [hmf]
    rw [hious, hsims, hcount, hmlen, hreplne]
    simp only [if_pos hn, if_neg hnotfalse]
    rw [hsum1, hrepllen, hdiv]
    norm_num

/-- Witness for C2 (amended) at the one-field set of spec scenario A:
`{text, "Name", {10, 10, 30, 3}}` scored against itself. -/
theorem C2_identity_amended_witness :
    ∃ sc, score_extraction
        [⟨some "Name", some "text", none, some ⟨some 10, some 10, some 30, some 3⟩,
          none, none, none, none, none⟩]
        [⟨some "Name", some "text", none, some ⟨some 10, some 10, some 30, some 3⟩,
          none, none, none, none, none⟩] none = Except.ok sc ∧
      sc.detection_rate = 100 ∧ sc.precision_rate = 100 ∧ sc.avg_iou = 100 ∧
      sc.type_accuracy = 100 ∧ sc.label_accuracy = 100 ∧ sc.overall_score = 100 := by
  apply C2_identity_amended
  · simp
  · intro f hf
    rw [List.mem_singleton] at hf
    subst hf
    refine ⟨by decide, rfl, ⟨some 10, some 10, some 30, some 3⟩, rfl, ?_, ?_⟩
    · show (0:ℚ) < (some (30:ℚ)).getD 0
      norm_num
    · show (0:ℚ) < (some (3:ℚ)).getD 0
      norm_num

end EB
